import Mathlib

/-!
Verification development for the spender spectrum autoencoder
(`src/spender/model.py`).

The Python model is shallowly embedded over exact rationals:

* tensors become `List ℚ` (vectors), `List (List ℚ)` (channel maps and
  batches);
* the transcendental primitives used by `nn.Softmax` (exp) and
  `nn.InstanceNorm1d` (reciprocal square root) are not exactly computable,
  so they are passed in as abstract function parameters bundled in `Prims`;
  the properties proved only use positivity of `exp`, which is the single
  fact the softmax normalisation invariant relies on;
* dropout randomness is threaded explicitly as boolean mask streams
  (`Rng2`, `Rng3`); in `Mode.eval` the masks are ignored, mirroring
  `nn.Dropout`'s documented evaluation-mode behaviour;
* fallible Python code (assertion failures, attribute errors on `None`,
  `1 + None` type errors, matmul shape mismatches) returns
  `Except Err _`;
* the Python tri-state `None` / `False` / value for instruments and
  auxiliary inputs is collapsed to `Option`: both `None` and `False` skip
  the same branches in the code paths modelled here, and no claim
  distinguishes them;
* a scalar redshift is modelled (`z : Option ℚ`); the code also accepts
  per-sample redshift vectors, which no claim exercises.

Batch processing maps the per-sample computation over the batch list,
which is exactly the semantics of the batched torch operations used in
the source (convolutions, instance norm, linear layers, softmax along the
position axis and the loss reduction all act per sample).  The scalar
preamble of `SpectrumDecoder.transform` (redshifting the wavelength grid,
the `instrument` attribute accesses) is kept at batch level, as in the
source, so that it fails even on empty batches exactly where the Python
does.
-/

set_option maxRecDepth 16000

namespace Spender

/-- Failure modes of the Python code:
`assert` failures, `TypeError` (from `1 + None`), `AttributeError`
(attribute access on `None`), and runtime tensor-shape mismatches. -/
inductive Err
  | assertionError
  | typeError
  | attributeError
  | dimMismatch
deriving DecidableEq, Repr

/-- `nn.Module.training` flag. -/
inductive Mode
  | train
  | eval
deriving DecidableEq, Repr

/-- Mask stream for a stack of dropout sites acting on vectors:
first index is the site (layer), second the element position. -/
abbrev Rng2 := Nat → Nat → Bool

/-- Mask stream for dropout sites acting on channel maps:
site, channel, position. -/
abbrev Rng3 := Nat → Nat → Nat → Bool

/-- Abstract numeric primitives: `exp` (used by softmax) and the
reciprocal square root used by instance normalisation.  They are
parameters of the embedding because exact real `exp`/`sqrt` are not
computable; every theorem only uses positivity of `exp`. -/
structure Prims where
  exp : ℚ → ℚ
  rsqrt : ℚ → ℚ

/-- Elementwise product followed by summation (`torch.sum(a * b)`)
for equal-length vectors. -/
def dot (a b : List ℚ) : ℚ := (List.zipWith (· * ·) a b).sum

/-- Pair every element of a list with its index. -/
def withIdx (l : List α) : List (Nat × α) := (List.range l.length).zip l

/-- `nn.Dropout(p)` on a vector.  In evaluation mode it is the identity;
in training mode element `j` is kept (and rescaled by `1/(1-p)`) iff
`mask j`, else zeroed. -/
def dropout (p : ℚ) (mode : Mode) (mask : Nat → Bool) (v : List ℚ) : List ℚ :=
  match mode with
  | .eval => v
  | .train => (withIdx v).map (fun it => if mask it.1 then it.2 / (1 - p) else 0)

/-- `nn.Dropout(p)` on a channel map (channels × positions). -/
def dropoutChan (p : ℚ) (mode : Mode) (mask : Rng2) (chans : List (List ℚ)) :
    List (List ℚ) :=
  match mode with
  | .eval => chans
  | .train =>
      (withIdx chans).map (fun ic =>
        (withIdx ic.2).map (fun it => if mask ic.1 it.1 then it.2 / (1 - p) else 0))

/-- The activation functions appearing in `model.py`:
`nn.LeakyReLU()` (slope 1/100), `nn.PReLU(n)` with per-channel learned
weights, and `nn.Identity()`. -/
inductive Act
  | leakyReLU
  | prelu (w : List ℚ)
  | identity
deriving DecidableEq

/-- Apply an activation to a vector. -/
def applyAct : Act → List ℚ → List ℚ
  | .leakyReLU, v => v.map (fun t => if t < 0 then t / 100 else t)
  | .prelu w, v => List.zipWith (fun a t => if t < 0 then a * t else t) w v
  | .identity, v => v

/-- One `nn.Linear` layer (weight matrix rows × bias) together with the
activation that follows it inside `MLP`. -/
structure LinLayer where
  W : List (List ℚ)
  b : List ℚ
  act : Act

/-- `nn.Linear` applied to a vector: fails with a shape mismatch unless
every weight row has the input's length (torch matmul dimension check),
otherwise returns `W v + b`. -/
def linear (W : List (List ℚ)) (b : List ℚ) (v : List ℚ) : Except Err (List ℚ) :=
  if ∀ row ∈ W, row.length = v.length then
    .ok (List.zipWith (fun row bi => dot row v + bi) W b)
  else .error .dimMismatch

/-- Forward pass of `MLP` (model.py lines 19-26): for each layer,
linear → activation → dropout. -/
def mlpForward (mode : Mode) (rng : Rng2) (p : ℚ) :
    List LinLayer → List ℚ → Except Err (List ℚ)
  | [], v => .ok v
  | l :: rest, v =>
    match linear l.W l.b v with
    | .error e => .error e
    | .ok v1 =>
        mlpForward mode (fun i j => rng (i + 1) j) p rest
          (dropout p mode (rng 0) (applyAct l.act v1))

/-- `MLP.__init__` (model.py lines 8-26), at the architecture level
(torch initialises the weights randomly, so construction determines the
layer shapes and activations): defaults the activation list to
`LeakyReLU` for every layer when none is given, then asserts
`len(act) == len(n_hidden) + 1`, then pairs consecutive widths of
`[n_in, *n_hidden, n_out]` with the activations. -/
def mkMLP (nIn nOut : Nat) (nHidden : List Nat) (act : Option (List Act)) :
    Except Err (List (Nat × Nat × Act)) :=
  let acts := match act with
    | none => List.replicate (nHidden.length + 1) Act.leakyReLU
    | some l => l
  if acts.length = nHidden.length + 1 then
    let ns := nIn :: (nHidden ++ [nOut])
    .ok (((ns.zip ns.tail).zip acts).map (fun t => (t.1.1, t.1.2, t.2)))
  else .error .assertionError

/-- One convolution block's parameters (`SpectrumEncoder._conv_blocks`,
model.py lines 77-93): `nn.Conv1d` kernels (out-channels × in-channels ×
kernel size), biases, the kernel size, and the per-channel `nn.PReLU`
weights. -/
structure ConvLayer where
  kernels : List (List (List ℚ))
  bias : List ℚ
  k : Nat
  prelu : List ℚ

/-- Zero padding on both sides (`padding=kernel_size//2` in `nn.Conv1d`). -/
def pad1 (p : Nat) (v : List ℚ) : List ℚ :=
  List.replicate p 0 ++ v ++ List.replicate p 0

/-- Output length of a stride-1 1-d convolution with padding `p`. -/
def convOutLen (k p L : Nat) : Nat := L + 2 * p + 1 - k

/-- `nn.Conv1d` with stride 1 and padding `k/2`: output channel `o`,
position `t` is `bias o + Σ_c Σ_j kernel o c j * padded_c (t + j)`. -/
def conv1d (cl : ConvLayer) (chans : List (List ℚ)) : List (List ℚ) :=
  let p := cl.k / 2
  let L := (chans.headD []).length
  (cl.kernels.zip cl.bias).map (fun kb =>
    (List.range (convOutLen cl.k p L)).map (fun t =>
      kb.2 + ((kb.1.zip chans).map (fun kc =>
        dot kc.1 (((pad1 p kc.2).drop t).take cl.k))).sum))

/-- `nn.InstanceNorm1d`: per channel, subtract the mean and divide by
the square root of the (biased) variance plus `eps = 1e-5`; the
reciprocal square root is the abstract primitive `rsq`. -/
def instanceNorm (rsq : ℚ → ℚ) (chans : List (List ℚ)) : List (List ℚ) :=
  chans.map (fun ch =>
    let n : ℚ := (ch.length : ℚ)
    let mu := ch.sum / n
    let vr := (ch.map (fun t => (t - mu) ^ 2)).sum / n
    ch.map (fun t => (t - mu) * rsq (vr + 1 / 100000)))

/-- Per-channel `nn.PReLU` on a channel map. -/
def preluChan (w : List ℚ) (chans : List (List ℚ)) : List (List ℚ) :=
  (w.zip chans).map (fun ac => ac.2.map (fun t => if t < 0 then ac.1 * t else t))

/-- Output length of `nn.MaxPool1d(k, padding=p)` with the default
stride `s = k`. -/
def poolOutLen (k s p L : Nat) : Nat := (L + 2 * p - k) / s + 1

/-- `nn.MaxPool1d(k, padding=k//2)` with default stride `k`: the padding
participates only as neutral elements (torch pads with `-inf`), so each
output is the max over the in-range window entries. -/
def maxpool (k s : Nat) (chans : List (List ℚ)) : List (List ℚ) :=
  let p := k / 2
  chans.map (fun ch =>
    let padded : List (Option ℚ) :=
      List.replicate p none ++ ch.map some ++ List.replicate p none
    (List.range (poolOutLen k s p ch.length)).map (fun t =>
      (((padded.drop (t * s)).take k).filterMap id).max?.getD 0))

/-- One block of `SpectrumEncoder._conv_blocks`:
convolution → instance norm → per-channel PReLU → dropout. -/
def convBlock (rsq : ℚ → ℚ) (mode : Mode) (mask : Rng2) (p : ℚ)
    (cl : ConvLayer) (chans : List (List ℚ)) : List (List ℚ) :=
  dropoutChan p mode mask (preluChan cl.prelu (instanceNorm rsq (conv1d cl chans)))

/-- `nn.Softmax(dim=-1)` on one row, with `exp` abstracted by `E`. -/
def softmaxRow (E : ℚ → ℚ) (v : List ℚ) : List ℚ :=
  let s := (v.map E).sum
  v.map (fun t => E t / s)

/-- External `Instrument` collaborator: observed-frame wavelength grid,
optional line-spread-function operator, optional calibration function. -/
structure Instrument where
  wave_obs : List ℚ
  lsf : Option (List ℚ → List ℚ)
  calibration : Option (List ℚ → List ℚ → List ℚ)

/-- `SpectrumEncoder` state (model.py lines 46-74): the attached
instrument, latent and auxiliary widths, the three convolution blocks
(channel widths 128/256/512, kernel sizes 5/11/21 fixed by `__init__`),
the final dense block and the dropout probability. -/
structure Encoder where
  instrument : Option Instrument
  n_latent : Nat
  n_aux : Nat
  conv1 : ConvLayer
  conv2 : ConvLayer
  conv3 : ConvLayer
  mlp : List LinLayer
  p : ℚ

/-- `SpectrumEncoder._downsample` (model.py lines 95-105): the three
convolution blocks with max-pooling after the first two, then a split of
the channels into the value half `h` and the attention half `a`. -/
def downsample (P : Prims) (mode : Mode) (rc : Rng3) (enc : Encoder)
    (x : List ℚ) : List (List ℚ) × List (List ℚ) :=
  let x1 := maxpool 5 5 (convBlock P.rsqrt mode (rc 0) enc.p enc.conv1 [x])
  let x2 := maxpool 11 11 (convBlock P.rsqrt mode (rc 1) enc.p enc.conv2 x1)
  let x3 := convBlock P.rsqrt mode (rc 2) enc.p enc.conv3 x2
  let C := x3.length / 2
  (x3.take C, x3.drop C)

/-- The attention weights of `SpectrumEncoder.forward` (model.py line
111): softmax along the position axis of the key half produced by
`_downsample`. -/
def attentionMap (P : Prims) (mode : Mode) (rc : Rng3) (enc : Encoder)
    (x : List ℚ) : List (List ℚ) :=
  (downsample P mode rc enc x).2.map (softmaxRow P.exp)

/-- `SpectrumEncoder.forward` (model.py lines 107-125): downsample,
softmax attention, attention-weighted sum over positions, optional
concatenation of the auxiliary features (`aux is None` and
`aux is False` both skip it, collapsed to `none` here), then the dense
block. -/
def encForward (P : Prims) (mode : Mode) (rc : Rng3) (rm : Rng2)
    (enc : Encoder) (x : List ℚ) (aux : Option (List ℚ)) :
    Except Err (List ℚ) :=
  let h := (downsample P mode rc enc x).1
  let a := attentionMap P mode rc enc x
  let pooled := List.zipWith dot h a
  let v := match aux with
    | none => pooled
    | some u => pooled ++ u
  mlpForward mode rm enc.p enc.mlp v

/-- Python bitwise complement on a bool: `~True = -2`, `~False = -1`. -/
def pyInvert (b : Bool) : Int := -(if b then 1 else 0) - 1

/-- The hook-registration condition of model.py line 115,
`if ~self.training and a.requires_grad == True:`.  Python evaluates the
truthiness of the integer `~self.training` (nonzero means true). -/
def hookRegistered (training requiresGrad : Bool) : Bool :=
  (pyInvert training != 0) && requiresGrad

/-- `SpectrumDecoder` state (model.py lines 144-166): the registered
rest-frame wavelength grid, the latent width and its dense block. -/
structure Decoder where
  wave_rest : List ℚ
  n_latent : Nat
  mlp : List LinLayer
  p : ℚ

/-- Index of the interpolation segment used for query `q`: the number of
grid points `≤ q`, minus one, clamped into `[0, n-2]` (the behaviour of
the `torchinterp1d` search; out-of-range queries extrapolate with the
edge segment). -/
def interpIdx (xs : List ℚ) (q : ℚ) : Nat :=
  min (max (xs.filter (fun t => decide (t ≤ q))).length 1 - 1) (xs.length - 2)

/-- `Interp1d()(xs, ys, qs)`: piecewise-linear interpolation of the
samples `(xs, ys)` at the query points `qs`. -/
def interp1d (xs ys qs : List ℚ) : List ℚ :=
  qs.map (fun q =>
    let i := interpIdx xs q
    let x0 := xs.getD i 0
    let x1 := xs.getD (i + 1) 0
    let y0 := ys.getD i 0
    let y1 := ys.getD (i + 1) 0
    y0 + (y1 - y0) * (q - x0) / (x1 - x0))

/-- Apply `f` to every list element, propagating the first failure
(`Except`-monadic map over the batch). -/
def mapE (f : α → Except Err β) : List α → Except Err (List β)
  | [] => .ok []
  | a :: as =>
    match f a with
    | .error e => .error e
    | .ok b =>
      match mapE f as with
      | .error e => .error e
      | .ok bs => .ok (b :: bs)

/-- `SpectrumDecoder.transform` (model.py lines 179-197) on a batch of
rest-frame spectra.  Faithfully to the source: line 180 evaluates
`1 + z` first (a `TypeError` when `z is None`); line 182 falls back to
the rest grid when no instrument is given; line 187 resamples; line 190
then reads `instrument.lsf` without a `None` guard, which is an
`AttributeError` when `instrument` is `None` (line 194, by contrast,
guards the calibration access with `instrument is not None`). -/
def transform (dec : Decoder) (srs : List (List ℚ))
    (instrument : Option Instrument) (z : Option ℚ) :
    Except Err (List (List ℚ)) :=
  match z with
  | none => .error .typeError
  | some zv =>
    let wave_redshifted := dec.wave_rest.map (fun t => t * (1 + zv))
    let wave_obs := match instrument with
      | none => dec.wave_rest
      | some i => i.wave_obs
    let spec0 := srs.map (fun sr => interp1d wave_redshifted sr wave_obs)
    match instrument with
    | none => .error .attributeError
    | some i =>
      let spec1 := match i.lsf with
        | some f => spec0.map f
        | none => spec0
      let spec2 := match i.calibration with
        | some c => spec1.map (c wave_obs)
        | none => spec1
      .ok spec2

/-- `SpectrumDecoder.forward` (model.py lines 171-177): decode, then
transform only when an instrument or a redshift is supplied. -/
def decForward (mode : Mode) (rd : Rng2) (dec : Decoder)
    (ss : List (List ℚ)) (instrument : Option Instrument) (z : Option ℚ) :
    Except Err (List (List ℚ)) :=
  match mapE (mlpForward mode rd dec.p dec.mlp) ss with
  | .error e => .error e
  | .ok spectrum =>
    if instrument.isSome || z.isSome then transform dec spectrum instrument z
    else .ok spectrum

/-- The assembled autoencoder (`BaseAutoencoder` fields). -/
structure Autoenc where
  encoder : Encoder
  decoder : Decoder

/-- `BaseAutoencoder.__init__` (model.py lines 206-214):
`assert encoder.n_latent == decoder.n_latent`, then store both
sub-components unchanged. -/
def mkBaseAutoencoder (e : Encoder) (d : Decoder) : Except Err Autoenc :=
  if e.n_latent = d.n_latent then .ok ⟨e, d⟩ else .error .assertionError

/-- `BaseAutoencoder.encode` over a batch: per-sample
`SpectrumEncoder.forward`, with the optional auxiliary batch zipped in. -/
def encodeBatch (P : Prims) (mode : Mode) (rc : Rng3) (rm : Rng2)
    (enc : Encoder) (xs : List (List ℚ)) (aux : Option (List (List ℚ))) :
    Except Err (List (List ℚ)) :=
  match aux with
  | none => mapE (fun x => encForward P mode rc rm enc x none) xs
  | some A => mapE (fun xu => encForward P mode rc rm enc xu.1 (some xu.2)) (xs.zip A)

/-- `BaseAutoencoder.decode` over a batch of latents. -/
def decodeBatch (mode : Mode) (rd : Rng2) (dec : Decoder)
    (ss : List (List ℚ)) : Except Err (List (List ℚ)) :=
  mapE (mlpForward mode rd dec.p dec.mlp) ss

/-- The decode-then-transform tail of `BaseAutoencoder._forward`
(model.py lines 230-233), for an already-determined latent batch and
instrument. -/
def decObsStage (mode : Mode) (rd : Rng2) (dec : Decoder)
    (inst : Option Instrument) (z : Option ℚ) (ss : List (List ℚ)) :
    Except Err (List (List ℚ) × List (List ℚ) × List (List ℚ)) :=
  match decodeBatch mode rd dec ss with
  | .error e => .error e
  | .ok rest =>
    match transform dec rest inst z with
    | .error e => .error e
    | .ok obs => .ok (ss, rest, obs)

/-- `BaseAutoencoder._forward` (model.py lines 222-233): encode unless a
latent batch is supplied, default the instrument to the encoder's, then
always decode and always transform; returns the full triple. -/
def autoUnder (P : Prims) (mode : Mode) (rc : Rng3) (rm : Rng2) (rd : Rng2)
    (m : Autoenc) (xs : List (List ℚ)) (instrument : Option Instrument)
    (z : Option ℚ) (s : Option (List (List ℚ))) (aux : Option (List (List ℚ))) :
    Except Err (List (List ℚ) × List (List ℚ) × List (List ℚ)) :=
  match (match s with
         | some ss => Except.ok ss
         | none => encodeBatch P mode rc rm m.encoder xs aux) with
  | .error e => .error e
  | .ok ss =>
    decObsStage mode rd m.decoder
      (match instrument with
       | none => m.encoder.instrument
       | some i => some i) z ss

/-- `BaseAutoencoder.forward` (model.py lines 235-237): the observed
component of `_forward`. -/
def autoForward (P : Prims) (mode : Mode) (rc : Rng3) (rm : Rng2) (rd : Rng2)
    (m : Autoenc) (xs : List (List ℚ)) (instrument : Option Instrument)
    (z : Option ℚ) (s : Option (List (List ℚ))) (aux : Option (List (List ℚ))) :
    Except Err (List (List ℚ)) :=
  match autoUnder P mode rc rm rd m xs instrument z s aux with
  | .error e => .error e
  | .ok t => .ok t.2.2

/-- `x.shape[1]`: the length of the first row of a rectangular batch. -/
def sndDim (x : List (List ℚ)) : Nat := (x.headD []).length

/-- Three-list `zipWith`. -/
def zipW3 (f : α → β → γ → δ) : List α → List β → List γ → List δ
  | a :: as, b :: bs, c :: cs => f a b c :: zipW3 f as bs cs
  | _, _, _ => []

/-- The per-sample loss vector of `BaseAutoencoder._loss` (model.py line
250): `torch.sum(0.5 * w * (x - r)^2, dim=1) / x.shape[1]`. -/
def lossIndList (x w r : List (List ℚ)) : List ℚ :=
  zipW3 (fun xi wi ri =>
      (zipW3 (fun xv wv rv => 1 / 2 * wv * (xv - rv) ^ 2) xi wi ri).sum
        / (sndDim x : ℚ))
    x w r

/-- `BaseAutoencoder._loss` (model.py lines 243-255): the per-sample
vector when `individual`, its sum over samples otherwise. -/
def tLoss (x w r : List (List ℚ)) (individual : Bool) : List ℚ ⊕ ℚ :=
  if individual then Sum.inl (lossIndList x w r)
  else Sum.inr (lossIndList x w r).sum

/-- `BaseAutoencoder.loss` (model.py lines 239-241): run `forward`, then
`_loss`. -/
def autoLoss (P : Prims) (mode : Mode) (rc : Rng3) (rm : Rng2) (rd : Rng2)
    (m : Autoenc) (xs ws : List (List ℚ)) (instrument : Option Instrument)
    (z : Option ℚ) (s : Option (List (List ℚ))) (aux : Option (List (List ℚ)))
    (individual : Bool) : Except Err (List ℚ ⊕ ℚ) :=
  match autoForward P mode rc rm rd m xs instrument z s aux with
  | .error e => .error e
  | .ok obs => .ok (tLoss xs ws obs individual)

/-- Reindex a batch by a list of sample indices. -/
def reindex (σ : List Nat) (xs : List (List ℚ)) : List (List ℚ) :=
  σ.map (fun i => xs.getD i [])

/-- Reindex a vector by a list of indices. -/
def reindexQ (σ : List Nat) (v : List ℚ) : List ℚ :=
  σ.map (fun i => v.getD i 0)

/-- All-ones weights of the same shape as a batch. -/
def onesLike (xs : List (List ℚ)) : List (List ℚ) :=
  xs.map (fun r => List.replicate r.length (1 : ℚ))

/-- Decidable equality of `Except` results, used to evaluate the
embedding on concrete inputs. -/
instance exceptDecEq {ε α : Type} [DecidableEq ε] [DecidableEq α] :
    DecidableEq (Except ε α) := fun x y =>
  match x, y with
  | .ok a, .ok b =>
    if h : a = b then isTrue (by rw [h])
    else isFalse (fun hc => h (Except.ok.inj hc))
  | .error e, .error f =>
    if h : e = f then isTrue (by rw [h])
    else isFalse (fun hc => h (Except.error.inj hc))
  | .ok _, .error _ => isFalse (fun hc => Except.noConfusion hc)
  | .error _, .ok _ => isFalse (fun hc => Except.noConfusion hc)

/-- Primitives instance used for concrete evaluations: the constant-one
function is a valid positive stand-in for `exp`, and the value of the
reciprocal square root never matters on the inputs evaluated here. -/
def oneP : Prims := ⟨fun _ => 1, fun _ => 1⟩

/-- An arbitrary concrete channel-map mask stream. -/
def rngA : Rng3 := fun _ _ _ => true

/-- An arbitrary concrete vector mask stream. -/
def rngB : Rng2 := fun _ _ => true

/-- A convolution block whose kernels, biases and PReLU weights are all
zero (a particular value of torch's random initialisation). -/
def zeroConv (cout cin k : Nat) : ConvLayer :=
  ⟨List.replicate cout (List.replicate cin (List.replicate k 0)),
   List.replicate cout 0, k, List.replicate cout 0⟩

/-- A minimal instrument: two observed wavelengths, no LSF, no
calibration. -/
def instr0 : Instrument := ⟨[1, 2], none, none⟩

/-- An encoder with the architecture `SpectrumEncoder.__init__` fixes
(channel widths 128/256/512, kernel sizes 5/11/21), all convolution
parameters zero, latent width 1, and a caller-chosen auxiliary width and
dense block. -/
def encBase (nAux : Nat) (mlp : List LinLayer) : Encoder :=
  ⟨some instr0, 1, nAux,
   zeroConv 128 1 5, zeroConv 256 128 11, zeroConv 512 256 21, mlp, 0⟩

/-- Encoder built with `n_aux = 0`: its dense block expects the bare
256-wide pooled vector. -/
def enc0 : Encoder :=
  encBase 0 [⟨[List.replicate 256 0], [0], Act.identity⟩]

/-- Encoder built with `n_aux = 1`: its dense block expects a 257-wide
input (pooled features plus one auxiliary scalar). -/
def enc1 : Encoder :=
  encBase 1 [⟨[List.replicate 257 0], [0], Act.identity⟩]

/-- A decoder with rest-frame grid `[1, 2]`, latent width 1 and a single
zero linear layer. -/
def dec0 : Decoder := ⟨[1, 2], 1, [⟨[[0], [0]], [0, 0], Act.leakyReLU⟩], 0⟩

/-- A decoder whose latent width disagrees with `enc0`'s. -/
def decBad : Decoder := ⟨[1, 2], 2, [⟨[[0], [0]], [0, 0], Act.leakyReLU⟩], 0⟩

/-- The assembled concrete autoencoder. -/
def model0 : Autoenc := ⟨enc0, dec0⟩

/-- The composed position-axis length of `_downsample` output for an
input of length `L`: conv (same padding) → pool 5 → conv → pool 11 →
conv. -/
def dsLen (L : Nat) : Nat :=
  convOutLen 21 10 (poolOutLen 11 11 5 (convOutLen 11 5 (poolOutLen 5 5 2 (convOutLen 5 2 L))))

/-- Channel-count well-formedness of one convolution block. -/
def ConvLayer.wfc (cl : ConvLayer) (cout : Nat) : Prop :=
  cl.kernels.length = cout ∧ cl.bias.length = cout ∧ cl.prelu.length = cout

/-- The channel counts `SpectrumEncoder.__init__` fixes:
`filters = [128, 256, 512]`. -/
def Encoder.wf (enc : Encoder) : Prop :=
  enc.conv1.wfc 128 ∧ enc.conv2.wfc 256 ∧ enc.conv3.wfc 512

/-! ### Generic list helpers -/

theorem zip_replicate_same (n : Nat) (a : α) (b : β) :
    (List.replicate n a).zip (List.replicate n b) = List.replicate n (a, b) := by
  induction n with
  | zero => rfl
  | succ m ih => simp [List.replicate_succ, ih]

theorem zipWith_replicate_same (f : α → β → γ) (n : Nat) (a : α) (b : β) :
    List.zipWith f (List.replicate n a) (List.replicate n b) =
      List.replicate n (f a b) := by
  induction n with
  | zero => rfl
  | succ m ih => simp [List.replicate_succ, ih]

theorem dot_zero_left (n : Nat) (v : List ℚ) : dot (List.replicate n 0) v = 0 := by
  unfold dot
  apply List.sum_eq_zero
  intro x hx
  induction v generalizing n with
  | nil => simp at hx
  | cons hd tl ih =>
    cases n with
    | zero => simp at hx
    | succ m =>
      simp only [List.replicate_succ, List.zipWith_cons_cons, List.mem_cons] at hx
      rcases hx with h | h
      · rw [h]; ring
      · exact ih m h

theorem getD_map_lt (f : α → β) (l : List α) (i : Nat) (hi : i < l.length)
    (d : β) (d0 : α) : (l.map f).getD i d = f (l.getD i d0) := by
  induction l generalizing i with
  | nil => simp at hi
  | cons hd tl ih =>
    cases i with
    | zero => rfl
    | succ j =>
      simp only [List.map_cons, List.getD_cons_succ]
      exact ih j (by simpa using hi)

theorem getD_lt_mem (l : List α) (i : Nat) (hi : i < l.length) (d : α) :
    l.getD i d ∈ l := by
  induction l generalizing i with
  | nil => simp at hi
  | cons hd tl ih =>
    cases i with
    | zero => simp
    | succ j =>
      simp only [List.getD_cons_succ]
      exact List.mem_cons_of_mem _ (ih j (by simpa using hi))

theorem eq_of_getD (d : α) (l1 l2 : List α) (hlen : l1.length = l2.length)
    (h : ∀ j, j < l1.length → l1.getD j d = l2.getD j d) : l1 = l2 := by
  induction l1 generalizing l2 with
  | nil => cases l2 with
    | nil => rfl
    | cons b t => simp at hlen
  | cons a t ih =>
    cases l2 with
    | nil => simp at hlen
    | cons b t2 =>
      have h0 := h 0 (by simp)
      simp only [List.getD_cons_zero] at h0
      have ht : t = t2 := by
        refine ih t2 (by simpa using hlen) ?_
        intro j hj
        have := h (j + 1) (by simpa using Nat.succ_lt_succ hj)
        simpa using this
      rw [h0, ht]

theorem map_getD_range (d : α) (l : List α) :
    (List.range l.length).map (fun i => l.getD i d) = l := by
  induction l with
  | nil => rfl
  | cons a t ih =>
    simp only [List.length_cons, List.range_succ_eq_map, List.map_cons,
      List.getD_cons_zero, List.map_map]
    refine congrArg (a :: ·) ?_
    have : ((fun i => (a :: t).getD i d) ∘ Nat.succ) = fun i => t.getD i d := by
      funext i; simp
    rw [this, ih]

theorem getD_replicate_self (n i : Nat) (a : α) :
    (List.replicate n a).getD i a = a := by
  induction n generalizing i with
  | zero => simp [List.getD]
  | succ m ih =>
    cases i with
    | zero => rfl
    | succ j => simp [List.replicate_succ, ih j]

theorem headD_replicate (n : Nat) (hn : 0 < n) (a d : α) :
    (List.replicate n a).headD d = a := by
  cases n with
  | zero => exact absurd hn (by simp)
  | succ m => rfl

/-! ### Lemmas about the batch map `mapE` -/

theorem mapE_congr (f g : α → Except Err β) (l : List α)
    (h : ∀ a, f a = g a) : mapE f l = mapE g l := by
  induction l with
  | nil => rfl
  | cons a as ih => simp only [mapE, h a, ih]

theorem mapE_ok_length (f : α → Except Err β) (xs : List α) (ys : List β)
    (h : mapE f xs = .ok ys) : ys.length = xs.length := by
  induction xs generalizing ys with
  | nil => simp only [mapE] at h; cases h; rfl
  | cons a as ih =>
    simp only [mapE] at h
    cases hfa : f a with
    | error e => rw [hfa] at h; exact absurd h (by simp)
    | ok b =>
      rw [hfa] at h
      cases hrest : mapE f as with
      | error e => rw [hrest] at h; exact absurd h (by simp)
      | ok bs =>
        rw [hrest] at h
        cases h
        simp [ih bs hrest]

theorem mapE_ok_getD (f : α → Except Err β) (xs : List α) (ys : List β)
    (dx : α) (dy : β) (h : mapE f xs = .ok ys) :
    ∀ i, i < xs.length → f (xs.getD i dx) = .ok (ys.getD i dy) := by
  induction xs generalizing ys with
  | nil => intro i hi; simp at hi
  | cons a as ih =>
    simp only [mapE] at h
    cases hfa : f a with
    | error e => rw [hfa] at h; exact absurd h (by simp)
    | ok b =>
      rw [hfa] at h
      cases hrest : mapE f as with
      | error e => rw [hrest] at h; exact absurd h (by simp)
      | ok bs =>
        rw [hrest] at h
        cases h
        intro i hi
        cases i with
        | zero => simpa using hfa
        | succ j =>
          simp only [List.getD_cons_succ]
          exact ih bs hrest j (by simpa using hi)

theorem mapE_reindex (f : List ℚ → Except Err (List ℚ))
    (xs ys : List (List ℚ)) (σ : List Nat)
    (h : mapE f xs = .ok ys) (hσ : ∀ i ∈ σ, i < xs.length) :
    mapE f (σ.map (fun i => xs.getD i [])) = .ok (σ.map (fun i => ys.getD i [])) := by
  induction σ with
  | nil => rfl
  | cons i σt ih =>
    have hi : i < xs.length := hσ i (by simp)
    have hfi := mapE_ok_getD f xs ys [] [] h i hi
    simp only [List.map_cons, mapE, hfi,
      ih (fun j hj => hσ j (List.mem_cons_of_mem _ hj))]

/-! ### Lemmas about `zipW3` -/

theorem zipW3_length (f : α → β → γ → δ) (a : List α) (b : List β) (c : List γ) :
    (zipW3 f a b c).length = min a.length (min b.length c.length) := by
  induction a generalizing b c with
  | nil => simp [zipW3]
  | cons x xs ih =>
    cases b with
    | nil => simp [zipW3]
    | cons y ys =>
      cases c with
      | nil => simp [zipW3]
      | cons z zs =>
        simp only [zipW3, List.length_cons, ih]
        omega

theorem zipW3_getD (f : α → β → γ → δ) (a : List α) (b : List β) (c : List γ)
    (da : α) (db : β) (dc : γ) (dd : δ) (j : Nat)
    (ha : j < a.length) (hb : j < b.length) (hc : j < c.length) :
    (zipW3 f a b c).getD j dd = f (a.getD j da) (b.getD j db) (c.getD j dc) := by
  induction a generalizing b c j with
  | nil => simp at ha
  | cons x xs ih =>
    cases b with
    | nil => simp at hb
    | cons y ys =>
      cases c with
      | nil => simp at hc
      | cons z zs =>
        cases j with
        | zero => rfl
        | succ k =>
          simp only [zipW3, List.getD_cons_succ]
          exact ih ys zs k (by simpa using ha) (by simpa using hb) (by simpa using hc)

theorem zipW3_sum_finset (f : ℚ → ℚ → ℚ → ℚ) (n : Nat)
    (a b c : List ℚ) (ha : a.length = n) (hb : b.length = n) (hc : c.length = n) :
    (zipW3 f a b c).sum =
      ∑ j in Finset.range n, f (a.getD j 0) (b.getD j 0) (c.getD j 0) := by
  induction n generalizing a b c with
  | zero =>
    have : a = [] := List.length_eq_zero.mp ha
    subst this
    simp [zipW3]
  | succ m ih =>
    cases a with
    | nil => simp at ha
    | cons x xs =>
      cases b with
      | nil => simp at hb
      | cons y ys =>
        cases c with
        | nil => simp at hc
        | cons z zs =>
          simp only [zipW3, List.sum_cons]
          rw [Finset.sum_range_succ' (fun j => f ((x :: xs).getD j 0)
            ((y :: ys).getD j 0) ((z :: zs).getD j 0)) m]
          simp only [List.getD_cons_succ, List.getD_cons_zero]
          rw [ih xs ys zs (by simpa using ha) (by simpa using hb) (by simpa using hc)]
          ring

theorem lossRow_self_zero (xi wi : List ℚ) :
    (zipW3 (fun xv wv rv => 1 / 2 * wv * (xv - rv) ^ 2) xi wi xi).sum = 0 := by
  induction xi generalizing wi with
  | nil => simp [zipW3]
  | cons x xs ih =>
    cases wi with
    | nil => simp [zipW3]
    | cons w ws =>
      simp only [zipW3, List.sum_cons, ih ws]
      ring

/-! ### Simple facts used by several claims -/

theorem transform_z_none (dec : Decoder) (srs : List (List ℚ))
    (instrument : Option Instrument) :
    transform dec srs instrument none = .error .typeError := rfl

theorem decObsStage_z_none (mode : Mode) (rd : Rng2) (dec : Decoder)
    (inst : Option Instrument) (ss : List (List ℚ)) :
    ∃ e, decObsStage mode rd dec inst none ss = .error e := by
  unfold decObsStage
  cases hd : decodeBatch mode rd dec ss with
  | error e => exact ⟨e, rfl⟩
  | ok rest => exact ⟨Err.typeError, rfl⟩

theorem autoUnder_z_none (P : Prims) (mode : Mode) (rc : Rng3) (rm : Rng2)
    (rd : Rng2) (m : Autoenc) (xs : List (List ℚ))
    (instrument : Option Instrument) (s aux : Option (List (List ℚ))) :
    ∃ e, autoUnder P mode rc rm rd m xs instrument none s aux = .error e := by
  unfold autoUnder
  cases hs : (match s with
         | some ss => Except.ok ss
         | none => encodeBatch P mode rc rm m.encoder xs aux) with
  | error e => exact ⟨e, rfl⟩
  | ok ss =>
    exact decObsStage_z_none mode rd m.decoder
      (match instrument with
       | none => m.encoder.instrument
       | some i => some i) ss

/-! ### Evaluating the convolution stack on all-zero parameters -/

theorem conv1d_zeroConv (cout cin k : Nat) (chans : List (List ℚ)) :
    conv1d (zeroConv cout cin k) chans =
      List.replicate cout
        (List.replicate (convOutLen k (k / 2) ((chans.headD []).length)) 0) := by
  unfold conv1d zeroConv
  simp only [zip_replicate_same, List.map_replicate]
  congr 1
  have hz : ∀ t : Nat,
      ((((List.replicate cin (List.replicate k (0 : ℚ)),
          (0 : ℚ)).1.zip chans)).map
        (fun kc => dot kc.1 (((pad1 (k / 2) kc.2).drop t).take k))).sum = 0 := by
    intro t
    apply List.sum_eq_zero
    intro q hq
    simp only [List.mem_map] at hq
    obtain ⟨kc, hkc, rfl⟩ := hq
    have h1 := (List.of_mem_zip hkc).1
    rw [List.eq_of_mem_replicate h1]
    exact dot_zero_left k _
  have hmap :
      (List.range (convOutLen k (k / 2) ((chans.headD []).length))).map
        (fun t => (List.replicate cin (List.replicate k (0 : ℚ)), (0 : ℚ)).2 +
          ((((List.replicate cin (List.replicate k (0 : ℚ)),
              (0 : ℚ)).1.zip chans)).map
            (fun kc => dot kc.1 (((pad1 (k / 2) kc.2).drop t).take k))).sum) =
      (List.range (convOutLen k (k / 2) ((chans.headD []).length))).map
        (fun _ => (0 : ℚ)) := by
    apply List.map_congr_left
    intro t _
    rw [hz t]
    simp
  rw [hmap, List.map_const', List.length_range]

theorem instanceNorm_zeros (r : ℚ → ℚ) (c n : Nat) :
    instanceNorm r (List.replicate c (List.replicate n 0)) =
      List.replicate c (List.replicate n 0) := by
  simp [instanceNorm, List.sum_replicate]

theorem preluChan_zeros (a : ℚ) (c n : Nat) :
    preluChan (List.replicate c a) (List.replicate c (List.replicate n 0)) =
      List.replicate c (List.replicate n 0) := by
  unfold preluChan
  rw [zip_replicate_same, List.map_replicate]
  simp

theorem foldl_max_zero (t : List ℚ) (h : ∀ x ∈ t, x = 0) :
    t.foldl max 0 = 0 := by
  induction t with
  | nil => rfl
  | cons a tl ih =>
    rw [List.foldl_cons, h a (by simp), max_self]
    exact ih (fun x hx => h x (List.mem_cons_of_mem _ hx))

theorem maxQ_zero (l : List ℚ) (h : ∀ x ∈ l, x = 0) : l.max?.getD 0 = 0 := by
  cases l with
  | nil => rfl
  | cons a tl =>
    have hm : (a :: tl).max? = some (tl.foldl max a) := rfl
    rw [hm, Option.getD_some, h a (by simp)]
    exact foldl_max_zero tl (fun x hx => h x (List.mem_cons_of_mem _ hx))

theorem maxpool_zeros (k s c n : Nat) :
    maxpool k s (List.replicate c (List.replicate n 0)) =
      List.replicate c (List.replicate (poolOutLen k s (k / 2) n) 0) := by
  unfold maxpool
  rw [List.map_replicate]
  congr 1
  have hwin : ∀ t : Nat,
      ((((List.replicate (k / 2) (none : Option ℚ) ++
          (List.replicate n (0 : ℚ)).map some ++
          List.replicate (k / 2) none).drop (t * s)).take k).filterMap id).max?.getD 0
        = 0 := by
    intro t
    apply maxQ_zero
    intro x hx
    simp only [List.mem_filterMap, id_eq] at hx
    obtain ⟨a, ha, hax⟩ := hx
    have ha2 : a ∈ (List.replicate (k / 2) (none : Option ℚ) ++
        (List.replicate n (0 : ℚ)).map some ++ List.replicate (k / 2) none) :=
      List.drop_subset _ _ (List.take_subset _ _ ha)
    rcases List.mem_append.mp ha2 with h1 | h2
    · rcases List.mem_append.mp h1 with h1a | h1b
      · rw [List.eq_of_mem_replicate h1a] at hax
        exact absurd hax (by simp)
      · simp only [List.mem_map] at h1b
        obtain ⟨q, hq, rfl⟩ := h1b
        have : q = 0 := List.eq_of_mem_replicate hq
        rw [this] at hax
        exact (Option.some_inj.mp hax).symm
    · rw [List.eq_of_mem_replicate h2] at hax
      exact absurd hax (by simp)
  have hmap :
      (List.range (poolOutLen k s (k / 2) (List.replicate n (0 : ℚ)).length)).map
        (fun t =>
          ((((List.replicate (k / 2) (none : Option ℚ) ++
              (List.replicate n (0 : ℚ)).map some ++
              List.replicate (k / 2) none).drop (t * s)).take k).filterMap id).max?.getD 0) =
      (List.range (poolOutLen k s (k / 2) (List.replicate n (0 : ℚ)).length)).map
        (fun _ => (0 : ℚ)) :=
    List.map_congr_left (fun t _ => hwin t)
  rw [hmap, List.map_const', List.length_range, List.length_replicate]

theorem convBlock_eval_zeroConv (r : ℚ → ℚ) (mask : Rng2) (p : ℚ)
    (cout cin k : Nat) (chans : List (List ℚ)) :
    convBlock r .eval mask p (zeroConv cout cin k) chans =
      List.replicate cout
        (List.replicate (convOutLen k (k / 2) ((chans.headD []).length)) 0) := by
  unfold convBlock
  rw [conv1d_zeroConv, instanceNorm_zeros]
  have hp : (zeroConv cout cin k).prelu = List.replicate cout 0 := rfl
  rw [hp, preluChan_zeros]
  rfl

theorem downsample_encBase (P : Prims) (rc : Rng3) (nAux : Nat)
    (mlp : List LinLayer) (x : List ℚ) :
    downsample P .eval rc (encBase nAux mlp) x =
      (List.replicate 256 (List.replicate (dsLen x.length) 0),
       List.replicate 256 (List.replicate (dsLen x.length) 0)) := by
  have b1 : convBlock P.rsqrt .eval (rc 0) (encBase nAux mlp).p
      (encBase nAux mlp).conv1 [x] =
      List.replicate 128 (List.replicate (convOutLen 5 2 x.length) 0) := by
    rw [show (encBase nAux mlp).conv1 = zeroConv 128 1 5 from rfl,
      convBlock_eval_zeroConv]
    rfl
  have p1 : maxpool 5 5
      (List.replicate 128 (List.replicate (convOutLen 5 2 x.length) (0 : ℚ))) =
      List.replicate 128
        (List.replicate (poolOutLen 5 5 2 (convOutLen 5 2 x.length)) 0) := by
    rw [maxpool_zeros]
  have b2 : convBlock P.rsqrt .eval (rc 1) (encBase nAux mlp).p
      (encBase nAux mlp).conv2
      (List.replicate 128
        (List.replicate (poolOutLen 5 5 2 (convOutLen 5 2 x.length)) (0 : ℚ))) =
      List.replicate 256
        (List.replicate (convOutLen 11 5 (poolOutLen 5 5 2 (convOutLen 5 2 x.length))) 0) := by
    rw [show (encBase nAux mlp).conv2 = zeroConv 256 128 11 from rfl,
      convBlock_eval_zeroConv, headD_replicate 128 (by norm_num),
      List.length_replicate]
  have p2 : maxpool 11 11
      (List.replicate 256
        (List.replicate (convOutLen 11 5 (poolOutLen 5 5 2 (convOutLen 5 2 x.length))) (0 : ℚ))) =
      List.replicate 256
        (List.replicate (poolOutLen 11 11 5
          (convOutLen 11 5 (poolOutLen 5 5 2 (convOutLen 5 2 x.length)))) 0) := by
    rw [maxpool_zeros]
  have b3 : convBlock P.rsqrt .eval (rc 2) (encBase nAux mlp).p
      (encBase nAux mlp).conv3
      (List.replicate 256
        (List.replicate (poolOutLen 11 11 5
          (convOutLen 11 5 (poolOutLen 5 5 2 (convOutLen 5 2 x.length)))) (0 : ℚ))) =
      List.replicate 512 (List.replicate (dsLen x.length) 0) := by
    rw [show (encBase nAux mlp).conv3 = zeroConv 512 256 21 from rfl,
      convBlock_eval_zeroConv, headD_replicate 256 (by norm_num),
      List.length_replicate]
    rfl
  simp only [downsample]
  rw [b1, p1, b2, p2, b3, List.length_replicate]
  rw [show (512 : Nat) / 2 = 256 from rfl, List.take_replicate, List.drop_replicate]
  rfl

theorem softmaxRow_one_zeros (n : Nat) :
    softmaxRow (fun _ => (1 : ℚ)) (List.replicate n 0) =
      List.replicate n (1 / (n : ℚ)) := by
  simp [softmaxRow, List.sum_replicate]

theorem encBase_pooled (rc : Rng3) (nAux : Nat) (mlp : List LinLayer)
    (x : List ℚ) :
    List.zipWith dot (downsample oneP .eval rc (encBase nAux mlp) x).1
        (attentionMap oneP .eval rc (encBase nAux mlp) x) =
      List.replicate 256 0 := by
  unfold attentionMap
  rw [downsample_encBase]
  have hE : oneP.exp = fun _ => (1 : ℚ) := rfl
  rw [hE, List.map_replicate, softmaxRow_one_zeros, zipWith_replicate_same,
    dot_zero_left]

/-! ### Shape lemmas for the convolution stack -/

theorem withIdx_length (l : List α) : (withIdx l).length = l.length := by
  simp [withIdx]

theorem conv1d_length (cl : ConvLayer) (ch : List (List ℚ)) :
    (conv1d cl ch).length = min cl.kernels.length cl.bias.length := by
  simp [conv1d]

theorem instanceNorm_length (r : ℚ → ℚ) (ch : List (List ℚ)) :
    (instanceNorm r ch).length = ch.length := by
  simp [instanceNorm]

theorem preluChan_length (w : List ℚ) (ch : List (List ℚ)) :
    (preluChan w ch).length = min w.length ch.length := by
  simp [preluChan]

theorem dropoutChan_length (p : ℚ) (mode : Mode) (mask : Rng2)
    (ch : List (List ℚ)) : (dropoutChan p mode mask ch).length = ch.length := by
  cases mode with
  | eval => rfl
  | train => simp [dropoutChan, withIdx_length, withIdx]

theorem maxpool_length (k s : Nat) (ch : List (List ℚ)) :
    (maxpool k s ch).length = ch.length := by
  simp [maxpool]

theorem convBlock_length (r : ℚ → ℚ) (mode : Mode) (mask : Rng2) (p : ℚ)
    (cl : ConvLayer) (ch : List (List ℚ)) :
    (convBlock r mode mask p cl ch).length =
      min cl.prelu.length (min cl.kernels.length cl.bias.length) := by
  simp [convBlock, dropoutChan_length, preluChan_length, instanceNorm_length,
    conv1d_length]

theorem downsample_split_lengths (P : Prims) (mode : Mode) (rc : Rng3)
    (enc : Encoder) (x : List ℚ) (hwf : enc.wf) :
    (downsample P mode rc enc x).1.length = 256 ∧
    (downsample P mode rc enc x).2.length = 256 := by
  obtain ⟨-, -, h3a, h3b, h3c⟩ := hwf
  have hx3 : ∀ ch : List (List ℚ),
      (convBlock P.rsqrt mode (rc 2) enc.p enc.conv3 ch).length = 512 := by
    intro ch
    rw [convBlock_length, h3a, h3b, h3c]
    simp
  simp only [downsample]
  constructor
  · rw [List.length_take, hx3]
    decide
  · rw [List.length_drop, hx3]

/-- The pooled feature vector of `SpectrumEncoder.forward` has exactly
`n_feature = 256` entries for every well-formed encoder and input. -/
theorem pooled_length (P : Prims) (mode : Mode) (rc : Rng3) (enc : Encoder)
    (x : List ℚ) (hwf : enc.wf) :
    (List.zipWith dot (downsample P mode rc enc x).1
      (attentionMap P mode rc enc x)).length = 256 := by
  obtain ⟨hh, ha⟩ := downsample_split_lengths P mode rc enc x hwf
  simp [attentionMap, hh, ha]

/-! ### Concrete encoder evaluations -/

theorem linear_row_mismatch (W : List (List ℚ)) (b v : List ℚ) (m : Nat)
    (hW : W ≠ []) (hrow : ∀ row ∈ W, row.length = m) (hm : m ≠ v.length) :
    linear W b v = .error .dimMismatch := by
  unfold linear
  rw [if_neg]
  intro hall
  obtain ⟨r0, hr0⟩ := List.exists_mem_of_ne_nil W hW
  exact hm ((hrow r0 hr0) ▸ hall r0 hr0)

theorem mlpForward_enc0_mlp (rm : Rng2) :
    mlpForward .eval rm 0 enc0.mlp (List.replicate 256 0) = .ok [0] := by
  have hlin : linear [List.replicate 256 (0 : ℚ)] [0]
      (List.replicate 256 (0 : ℚ)) = .ok [0] := by
    unfold linear
    rw [if_pos]
    · show Except.ok
        [dot (List.replicate 256 (0 : ℚ)) (List.replicate 256 (0 : ℚ)) + 0] =
          Except.ok [0]
      rw [dot_zero_left, add_zero]
    · intro row hrow
      rw [List.mem_singleton] at hrow
      rw [hrow]
  show mlpForward .eval rm 0
    [⟨[List.replicate 256 0], [0], Act.identity⟩] (List.replicate 256 0) = .ok [0]
  simp only [mlpForward]
  rw [hlin]
  rfl

theorem encForward_enc0 (rc : Rng3) (rm : Rng2) (x : List ℚ) :
    encForward oneP .eval rc rm enc0 x none = .ok [0] := by
  have hpool := encBase_pooled rc 0 [⟨[List.replicate 256 0], [0], Act.identity⟩] x
  show encForward oneP .eval rc rm
    (encBase 0 [⟨[List.replicate 256 0], [0], Act.identity⟩]) x none = .ok [0]
  simp only [encForward]
  rw [hpool]
  exact mlpForward_enc0_mlp rm

theorem encForward_enc1_no_aux (rc : Rng3) (rm : Rng2) (x : List ℚ) :
    encForward oneP .eval rc rm enc1 x none = .error .dimMismatch := by
  have hpool := encBase_pooled rc 1 [⟨[List.replicate 257 0], [0], Act.identity⟩] x
  show encForward oneP .eval rc rm
    (encBase 1 [⟨[List.replicate 257 0], [0], Act.identity⟩]) x none =
      .error .dimMismatch
  simp only [encForward]
  rw [hpool]
  have hlin : linear [List.replicate 257 (0 : ℚ)] [0]
      (List.replicate 256 (0 : ℚ)) = .error .dimMismatch := by
    apply linear_row_mismatch _ _ _ 257
    · simp
    · intro row hrow
      rw [List.mem_singleton] at hrow
      rw [hrow, List.length_replicate]
    · simp
  simp only [mlpForward]
  rw [hlin]

theorem encForward_enc1_zero_aux (rc : Rng3) (rm : Rng2) (x : List ℚ) :
    encForward oneP .eval rc rm enc1 x (some [0]) = .ok [0] := by
  have hpool := encBase_pooled rc 1 [⟨[List.replicate 257 0], [0], Act.identity⟩] x
  show encForward oneP .eval rc rm
    (encBase 1 [⟨[List.replicate 257 0], [0], Act.identity⟩]) x (some [0]) = .ok [0]
  simp only [encForward]
  rw [hpool]
  have hv : List.replicate 256 (0 : ℚ) ++ [0] = List.replicate 257 0 := by
    rw [show (257 : Nat) = 256 + 1 from rfl, List.replicate_add]
    rfl
  rw [hv]
  have hlin : linear [List.replicate 257 (0 : ℚ)] [0]
      (List.replicate 257 (0 : ℚ)) = .ok [0] := by
    unfold linear
    rw [if_pos]
    · show Except.ok
        [dot (List.replicate 257 (0 : ℚ)) (List.replicate 257 (0 : ℚ)) + 0] =
          Except.ok [0]
      rw [dot_zero_left, add_zero]
    · intro row hrow
      rw [List.mem_singleton] at hrow
      rw [hrow]
  simp only [mlpForward]
  rw [hlin]
  rfl

theorem encBase_wf (na : Nat) (m : List LinLayer) : (encBase na m).wf := by
  refine ⟨⟨?_, ?_, ?_⟩, ⟨?_, ?_, ?_⟩, ⟨?_, ?_, ?_⟩⟩ <;>
    simp [encBase, zeroConv, ConvLayer.wfc]

/-! ### Claim C3 -/

/-- Claim C3 counterexample: for the concrete encoder `enc1` built with
`n_aux = 1` and input `[0]`, the forward call with the auxiliary
features absent does not succeed: it raises the matmul dimension
mismatch (the 256-wide pooled vector meets a 257-wide first dense
layer), while the call supplying the all-zero auxiliary vector of width
1 succeeds and returns the latent `[0]`.  This falsifies the claim that
the absent-aux call succeeds with zero contribution. -/
theorem encoder_absent_aux_claim_cex :
    encForward oneP Mode.eval rngA rngB enc1 [0] none = .error .dimMismatch ∧
    encForward oneP Mode.eval rngA rngB enc1 [0] (some [0]) = .ok [0] :=
  ⟨encForward_enc1_no_aux rngA rngB [0], encForward_enc1_zero_aux rngA rngB [0]⟩

/-- Claim C3 (corrected): for every encoder with the fixed architecture
channel counts (`wf`), a nonempty dense block whose first layer expects
`256 + n_aux` inputs, and `n_aux ≥ 1`, a forward call with the
auxiliary features absent skips the concatenation and fails with a
dimension mismatch in the dense block — absence is not a zero
contribution. -/
theorem encoder_absent_aux_dim_mismatch (P : Prims) (mode : Mode)
    (rc : Rng3) (rm : Rng2) (enc : Encoder) (x : List ℚ) (hwf : enc.wf)
    (l : LinLayer) (rest : List LinLayer) (hmlp : enc.mlp = l :: rest)
    (hW : l.W ≠ []) (hrow : ∀ row ∈ l.W, row.length = 256 + enc.n_aux)
    (ha : 1 ≤ enc.n_aux) :
    encForward P mode rc rm enc x none = .error .dimMismatch := by
  have hlen := pooled_length P mode rc enc x hwf
  have hlin : linear l.W l.b
      (List.zipWith dot (downsample P mode rc enc x).1
        (attentionMap P mode rc enc x)) = .error .dimMismatch := by
    apply linear_row_mismatch _ _ _ (256 + enc.n_aux) hW hrow
    rw [hlen]
    omega
  simp only [encForward, hmlp]
  simp only [mlpForward]
  rw [hlin]

/-- Claim C3 witness: the amended theorem applied to `enc1` and input
`[0]`. -/
theorem encoder_absent_aux_dim_mismatch_witness :
    enc1.wf ∧
    enc1.mlp = ⟨[List.replicate 257 0], [0], Act.identity⟩ :: [] ∧
    ([List.replicate 257 (0 : ℚ)] : List (List ℚ)) ≠ [] ∧
    (∀ row ∈ ([List.replicate 257 (0 : ℚ)] : List (List ℚ)),
      row.length = 256 + enc1.n_aux) ∧
    1 ≤ enc1.n_aux ∧
    encForward oneP Mode.eval rngA rngB enc1 [0] none = .error .dimMismatch :=
  ⟨encBase_wf 1 _, rfl, by simp,
   by intro row hrow; rw [List.mem_singleton] at hrow; rw [hrow]; rfl,
   by decide,
   encoder_absent_aux_dim_mismatch oneP Mode.eval rngA rngB enc1 [0]
     (encBase_wf 1 _) _ [] rfl (by simp)
     (by intro row hrow; rw [List.mem_singleton] at hrow; rw [hrow]; rfl)
     (by decide)⟩

/-! ### Claim C1 -/

/-- Claim C1 (code bug): the claim states that `transform` with no
instrument and `z = 0` succeeds in pass-through mode.  The code instead
raises: line 182 does route `wave_obs` to the rest grid when
`instrument` is `None`, but line 190 then evaluates `instrument.lsf`
without a `None` guard (line 194 has one), an `AttributeError`.  This
theorem evaluates the embedded code on that path: for every decoder and
every batch of rest-frame spectra, the call fails with the attribute
error instead of returning the resampled spectrum. -/
theorem transform_without_instrument_raises (dec : Decoder)
    (srs : List (List ℚ)) :
    transform dec srs none (some 0) = .error .attributeError := rfl

/-! ### Claim C4 -/

/-- Claim C4 (code bug): the claim states the gradient-capture hook is
registered only in evaluation mode.  Line 115 tests
`~self.training and a.requires_grad == True`, and Python's `~` on a bool
yields `-2` or `-1`, both truthy, so the condition is exactly
`requires_grad`: the hook is registered in training mode too.  At the
failing input `training = true, requiresGrad = true` the condition
evaluates to `true`, contradicting the claim. -/
theorem hook_condition_ignores_training_mode :
    ∀ training requiresGrad : Bool,
      hookRegistered training requiresGrad = requiresGrad := by decide

/-! ### Claim C10 -/

/-- Claim C10 (confirmed): `BaseAutoencoder._forward` invokes
`decoder.transform` unconditionally, and `transform` first evaluates
`wave_rest * (1 + z)`, a `TypeError` for `z = None`; so `forward` and
`loss` with the redshift omitted always raise instead of returning a
reconstruction, whatever the model, batch, instrument, latents or
auxiliary inputs. -/
theorem forward_without_redshift_errors (P : Prims) (mode : Mode)
    (rc : Rng3) (rm : Rng2) (rd : Rng2) (m : Autoenc)
    (xs ws : List (List ℚ)) (instrument : Option Instrument)
    (s aux : Option (List (List ℚ))) :
    (∃ e, autoForward P mode rc rm rd m xs instrument none s aux = .error e) ∧
    ∀ individual, ∃ e,
      autoLoss P mode rc rm rd m xs ws instrument none s aux individual = .error e := by
  obtain ⟨e, he⟩ := autoUnder_z_none P mode rc rm rd m xs instrument s aux
  have hf : autoForward P mode rc rm rd m xs instrument none s aux = .error e := by
    unfold autoForward
    rw [he]
  refine ⟨⟨e, hf⟩, fun individual => ⟨e, ?_⟩⟩
  unfold autoLoss
  rw [hf]

/-! ### Claim C5 -/

/-- Claim C5 (confirmed): `MLP` construction fails with the assertion
error exactly when an explicit activation list of the wrong length
(≠ hidden-layer count + 1) is supplied, before any tensor computation
(the failure is in the constructor, modelled as `mkMLP`); with no list
it succeeds with a `LeakyReLU` on every layer, and with a matching list
it succeeds. -/
theorem mlp_act_length_contract (nIn nOut : Nat) (nHidden : List Nat) :
    (∃ arch, mkMLP nIn nOut nHidden none = .ok arch ∧
      ∀ e ∈ arch, e.2.2 = Act.leakyReLU) ∧
    ∀ acts : List Act,
      ((∃ arch, mkMLP nIn nOut nHidden (some acts) = .ok arch) ↔
        acts.length = nHidden.length + 1) ∧
      (acts.length ≠ nHidden.length + 1 →
        mkMLP nIn nOut nHidden (some acts) = .error .assertionError) := by
  constructor
  · simp only [mkMLP]
    rw [if_pos (by simp)]
    refine ⟨_, rfl, ?_⟩
    intro e he
    simp only [List.mem_map] at he
    obtain ⟨t, ht, rfl⟩ := he
    have := (List.of_mem_zip ht).2
    simpa using List.eq_of_mem_replicate this
  · intro acts
    constructor
    · constructor
      · rintro ⟨arch, harch⟩
        by_contra hne
        unfold mkMLP at harch
        rw [if_neg (by simpa using hne)] at harch
        exact absurd harch (by simp)
      · intro hlen
        exact ⟨_, by unfold mkMLP; rw [if_pos (by simpa using hlen)]⟩
    · intro hne
      unfold mkMLP
      rw [if_neg (by simpa using hne)]

/-- Claim C5 witness: with one hidden layer, a two-element activation
list is accepted and a one-element list is rejected with the assertion
error. -/
theorem mlp_act_length_contract_witness :
    (∃ arch, mkMLP 3 4 [5] (some [Act.identity, Act.identity]) = .ok arch) ∧
    ([Act.identity].length ≠ [5].length + 1 ∧
      mkMLP 3 4 [5] (some [Act.identity]) = .error .assertionError) :=
  ⟨((mlp_act_length_contract 3 4 [5]).2 [Act.identity, Act.identity]).1.mpr (by decide),
   by decide,
   ((mlp_act_length_contract 3 4 [5]).2 [Act.identity]).2 (by decide)⟩

/-! ### Claim C6 -/

/-- Claim C6 (confirmed): `BaseAutoencoder.__init__` asserts
`encoder.n_latent == decoder.n_latent` at assembly time: construction
fails with the assertion error whenever the two latent widths differ,
and succeeds storing both sub-components unchanged whenever they are
equal. -/
theorem autoencoder_latent_dim_contract (e : Encoder) (d : Decoder) :
    (e.n_latent = d.n_latent → mkBaseAutoencoder e d = .ok ⟨e, d⟩) ∧
    (e.n_latent ≠ d.n_latent →
      mkBaseAutoencoder e d = .error .assertionError) := by
  constructor
  · intro h; unfold mkBaseAutoencoder; rw [if_pos h]
  · intro h; unfold mkBaseAutoencoder; rw [if_neg h]

/-- Claim C6 witness: `enc0` (latent width 1) assembles with `dec0`
(width 1) into exactly `⟨enc0, dec0⟩`, and fails the assertion with
`decBad` (width 2). -/
theorem autoencoder_latent_dim_contract_witness :
    (enc0.n_latent = dec0.n_latent ∧
      mkBaseAutoencoder enc0 dec0 = .ok ⟨enc0, dec0⟩) ∧
    (enc0.n_latent ≠ decBad.n_latent ∧
      mkBaseAutoencoder enc0 decBad = .error .assertionError) :=
  ⟨⟨rfl, (autoencoder_latent_dim_contract enc0 dec0).1 rfl⟩,
   ⟨by decide, (autoencoder_latent_dim_contract enc0 decBad).2 (by decide)⟩⟩

/-! ### Claim C8 -/

theorem dropout_eval (p : ℚ) (mask : Nat → Bool) (v : List ℚ) :
    dropout p .eval mask v = v := rfl

theorem mlpForward_eval_rng (r s : Rng2) (p : ℚ) (ls : List LinLayer)
    (v : List ℚ) : mlpForward .eval r p ls v = mlpForward .eval s p ls v := by
  induction ls generalizing v r s with
  | nil => rfl
  | cons l rest ih =>
    simp only [mlpForward]
    cases linear l.W l.b v with
    | error e => rfl
    | ok v1 =>
      show mlpForward .eval (fun i j => r (i + 1) j) p rest
          (dropout p .eval (r 0) (applyAct l.act v1)) =
        mlpForward .eval (fun i j => s (i + 1) j) p rest
          (dropout p .eval (s 0) (applyAct l.act v1))
      rw [dropout_eval, dropout_eval]
      exact ih _ _ _

theorem downsample_eval_rng (P : Prims) (rc rc' : Rng3) (enc : Encoder)
    (x : List ℚ) :
    downsample P .eval rc enc x = downsample P .eval rc' enc x := rfl

theorem encForward_eval_rng (P : Prims) (rc rc' : Rng3) (rm rm' : Rng2)
    (enc : Encoder) (x : List ℚ) (aux : Option (List ℚ)) :
    encForward P .eval rc rm enc x aux = encForward P .eval rc' rm' enc x aux := by
  simp only [encForward, attentionMap]
  rw [downsample_eval_rng P rc rc' enc x]
  exact mlpForward_eval_rng _ _ _ _ _

theorem encodeBatch_eval_rng (P : Prims) (rc rc' : Rng3) (rm rm' : Rng2)
    (enc : Encoder) (xs : List (List ℚ)) (aux : Option (List (List ℚ))) :
    encodeBatch P .eval rc rm enc xs aux =
      encodeBatch P .eval rc' rm' enc xs aux := by
  unfold encodeBatch
  cases aux with
  | none =>
    exact mapE_congr _ _ xs (fun x => encForward_eval_rng P rc rc' rm rm' enc x none)
  | some A =>
    exact mapE_congr _ _ (xs.zip A)
      (fun xu => encForward_eval_rng P rc rc' rm rm' enc xu.1 (some xu.2))

theorem decodeBatch_eval_rng (rd rd' : Rng2) (dec : Decoder)
    (ss : List (List ℚ)) :
    decodeBatch .eval rd dec ss = decodeBatch .eval rd' dec ss := by
  unfold decodeBatch
  exact mapE_congr _ _ ss (fun s => mlpForward_eval_rng rd rd' dec.p dec.mlp s)

theorem decObsStage_eval_rng (rd rd' : Rng2) (dec : Decoder)
    (inst : Option Instrument) (z : Option ℚ) (ss : List (List ℚ)) :
    decObsStage .eval rd dec inst z ss = decObsStage .eval rd' dec inst z ss := by
  unfold decObsStage
  rw [decodeBatch_eval_rng rd rd' dec ss]

/-- Claim C8 (confirmed): in evaluation mode every dropout site is the
identity, so the full forward computation does not depend on the
dropout mask streams at all: two calls with identical inputs and
parameters but arbitrary (different) randomness produce identical
outputs.  The embedding threads the randomness explicitly, so
bit-identical determinism is exactly independence from the streams. -/
theorem eval_forward_ignores_dropout_masks (P : Prims)
    (rc rc' : Rng3) (rm rm' rd rd' : Rng2) (m : Autoenc)
    (xs : List (List ℚ)) (instrument : Option Instrument) (z : Option ℚ)
    (s aux : Option (List (List ℚ))) :
    autoForward P .eval rc rm rd m xs instrument z s aux =
      autoForward P .eval rc' rm' rd' m xs instrument z s aux := by
  unfold autoForward autoUnder
  rw [encodeBatch_eval_rng P rc rc' rm rm' m.encoder xs aux]
  cases hs : (match s with
      | some ss => Except.ok ss
      | none => encodeBatch P .eval rc' rm' m.encoder xs aux) with
  | error e => rfl
  | ok ss =>
    exact congrArg
      (fun r => match r with
        | Except.error e => Except.error e
        | Except.ok (t : List (List ℚ) × List (List ℚ) × List (List ℚ)) =>
            Except.ok t.2.2)
      (decObsStage_eval_rng rd rd' m.decoder
        (match instrument with
         | none => m.encoder.instrument
         | some i => some i) z ss)

/-! ### Claim C9 -/

theorem softmaxRow_sum_one (E : ℚ → ℚ) (v : List ℚ)
    (hE : ∀ t, 0 < E t) (hv : v ≠ []) : (softmaxRow E v).sum = 1 := by
  unfold softmaxRow
  have hpos : 0 < (v.map E).sum := by
    apply List.sum_pos
    · intro q hq
      simp only [List.mem_map] at hq
      obtain ⟨t, ht, rfl⟩ := hq
      exact hE t
    · simpa using hv
  have hdiv : v.map (fun t => E t / (v.map E).sum) =
      v.map (fun t => E t * ((v.map E).sum)⁻¹) := by
    simp [div_eq_mul_inv]
  rw [hdiv, List.sum_map_mul_right]
  exact mul_inv_cancel₀ (ne_of_gt hpos)

theorem headD_mem (l : List α) (h : l ≠ []) (d : α) : l.headD d ∈ l := by
  cases l with
  | nil => exact absurd rfl h
  | cons a t => simp [List.headD]

theorem conv1d_rowlen (cl : ConvLayer) (ch : List (List ℚ)) :
    ∀ row ∈ conv1d cl ch,
      row.length = convOutLen cl.k (cl.k / 2) ((ch.headD []).length) := by
  intro row hrow
  simp only [conv1d, List.mem_map] at hrow
  obtain ⟨kb, hkb, rfl⟩ := hrow
  simp

theorem instanceNorm_rowlen (r : ℚ → ℚ) (ch : List (List ℚ)) (n : Nat)
    (h : ∀ row ∈ ch, row.length = n) :
    ∀ row ∈ instanceNorm r ch, row.length = n := by
  intro row hrow
  simp only [instanceNorm, List.mem_map] at hrow
  obtain ⟨c, hc, rfl⟩ := hrow
  simp [h c hc]

theorem preluChan_rowlen (w : List ℚ) (ch : List (List ℚ)) (n : Nat)
    (h : ∀ row ∈ ch, row.length = n) :
    ∀ row ∈ preluChan w ch, row.length = n := by
  intro row hrow
  simp only [preluChan, List.mem_map] at hrow
  obtain ⟨ac, hac, rfl⟩ := hrow
  simp [h ac.2 (List.of_mem_zip hac).2]

theorem dropoutChan_rowlen (p : ℚ) (mode : Mode) (mask : Rng2)
    (ch : List (List ℚ)) (n : Nat) (h : ∀ row ∈ ch, row.length = n) :
    ∀ row ∈ dropoutChan p mode mask ch, row.length = n := by
  cases mode with
  | eval => exact h
  | train =>
    intro row hrow
    simp only [dropoutChan, List.mem_map] at hrow
    obtain ⟨ic, hic, rfl⟩ := hrow
    have : ic.2 ∈ ch := (List.of_mem_zip hic).2
    simp [withIdx, h ic.2 this]

theorem convBlock_rowlen (r : ℚ → ℚ) (mode : Mode) (mask : Rng2) (p : ℚ)
    (cl : ConvLayer) (ch : List (List ℚ)) :
    ∀ row ∈ convBlock r mode mask p cl ch,
      row.length = convOutLen cl.k (cl.k / 2) ((ch.headD []).length) := by
  unfold convBlock
  exact dropoutChan_rowlen _ _ _ _ _
    (preluChan_rowlen _ _ _
      (instanceNorm_rowlen _ _ _ (conv1d_rowlen cl ch)))

theorem maxpool_rows_pos (k s : Nat) (ch : List (List ℚ)) :
    ∀ row ∈ maxpool k s ch, 0 < row.length := by
  intro row hrow
  simp only [maxpool, List.mem_map] at hrow
  obtain ⟨c, hc, rfl⟩ := hrow
  simp [poolOutLen]

theorem downsample_attn_rows (P : Prims) (mode : Mode) (rc : Rng3)
    (enc : Encoder) (x : List ℚ) (hwf : enc.wf) :
    ∀ row ∈ (downsample P mode rc enc x).2, row ≠ [] := by
  obtain ⟨-, ⟨h2a, h2b, h2c⟩, -⟩ := hwf
  intro row hrow
  simp only [downsample] at hrow
  have hrow2 := List.drop_subset _ _ hrow
  set ch2p := maxpool 11 11
    (convBlock P.rsqrt mode (rc 1) enc.p enc.conv2
      (maxpool 5 5 (convBlock P.rsqrt mode (rc 0) enc.p enc.conv1 [x]))) with hch2p
  have hlen2 : ch2p.length = 256 := by
    rw [hch2p, maxpool_length, convBlock_length, h2a, h2b, h2c]
    simp
  have hne2 : ch2p ≠ [] := by
    intro hnil
    rw [hnil] at hlen2
    simp at hlen2
  have hhl : 0 < (ch2p.headD []).length := by
    apply maxpool_rows_pos 11 11 _ _
    rw [hch2p] at hne2 ⊢
    exact headD_mem _ hne2 []
  have hx3 := convBlock_rowlen P.rsqrt mode (rc 2) enc.p enc.conv3 ch2p
    row hrow2
  have hpos : 0 < row.length := by
    rw [hx3]
    unfold convOutLen
    omega
  exact List.length_pos.mp hpos

/-- Claim C9 (confirmed): the attention weights of the encoder forward
pass — softmax of the key half of `_downsample` along the position axis
— form one row per channel, 256 of them for a well-formed encoder, and
each row sums to 1.  `exp` enters only through positivity, the one
property the softmax normalisation invariant needs. -/
theorem attention_weights_sum_to_one (P : Prims) (mode : Mode) (rc : Rng3)
    (enc : Encoder) (x : List ℚ) (hE : ∀ t, 0 < P.exp t) (hwf : enc.wf) :
    (attentionMap P mode rc enc x).length = 256 ∧
    ∀ row ∈ attentionMap P mode rc enc x, row.sum = 1 := by
  constructor
  · unfold attentionMap
    rw [List.length_map]
    exact (downsample_split_lengths P mode rc enc x hwf).2
  · intro row hrow
    simp only [attentionMap, List.mem_map] at hrow
    obtain ⟨base, hbase, rfl⟩ := hrow
    exact softmaxRow_sum_one P.exp base hE
      (downsample_attn_rows P mode rc enc x hwf base hbase)

/-- Claim C9 witness: the concrete encoder `enc0` on input `[0]`, with
the positive constant-one stand-in for `exp`. -/
theorem attention_weights_sum_to_one_witness :
    (∀ t, 0 < oneP.exp t) ∧ enc0.wf ∧
    ((attentionMap oneP Mode.eval rngA enc0 [0]).length = 256 ∧
      ∀ row ∈ attentionMap oneP Mode.eval rngA enc0 [0], row.sum = 1) :=
  ⟨fun _ => one_pos, encBase_wf 0 _,
   attention_weights_sum_to_one oneP Mode.eval rngA enc0 [0]
     (fun _ => one_pos) (encBase_wf 0 _)⟩

/-! ### Claim C2 -/

/-- Claim C2 (confirmed): for a rectangular batch of `N` spectra with
`L` bins, equal-shape weights `w` and observed-frame reconstruction `r`,
`_loss` computes per sample `Σ_bins (0.5 * w * (x - r)^2) / L` with `L`
the total bin count; it returns the length-`N` per-sample vector when
`individual` is set and the sum over samples otherwise; and when the
reconstruction equals the input every per-sample loss is `0` and the
summed loss is `0`. -/
theorem autoencoder_loss_formula (x w r : List (List ℚ)) (L : Nat)
    (hw : w.length = x.length) (hr : r.length = x.length)
    (hxL : ∀ row ∈ x, row.length = L) (hwL : ∀ row ∈ w, row.length = L)
    (hrL : ∀ row ∈ r, row.length = L) (hx0 : x ≠ []) :
    tLoss x w r true = Sum.inl (lossIndList x w r) ∧
    (lossIndList x w r).length = x.length ∧
    (∀ i, i < x.length →
      (lossIndList x w r).getD i 0 =
        (∑ j in Finset.range L,
          1 / 2 * ((w.getD i []).getD j 0) *
            (((x.getD i []).getD j 0) - ((r.getD i []).getD j 0)) ^ 2) / (L : ℚ)) ∧
    tLoss x w r false = Sum.inr (lossIndList x w r).sum ∧
    lossIndList x w x = List.replicate x.length 0 ∧
    tLoss x w x false = Sum.inr 0 := by
  have hsnd : sndDim x = L := by
    cases x with
    | nil => exact absurd rfl hx0
    | cons x0 xt => exact hxL x0 (by simp)
  have hself : lossIndList x w x = List.replicate x.length 0 := by
    refine eq_of_getD 0 _ _ ?_ ?_
    · simp only [lossIndList, zipW3_length, List.length_replicate, hw]
      omega
    · intro j hj
      simp only [lossIndList, zipW3_length, hw] at hj
      have hjx : j < x.length := by omega
      have hjw : j < w.length := by omega
      simp only [lossIndList]
      rw [zipW3_getD _ _ _ _ [] [] [] 0 j hjx hjw hjx, lossRow_self_zero,
        zero_div, getD_replicate_self]
  refine ⟨by simp [tLoss], ?_, ?_, by simp [tLoss], hself, ?_⟩
  · simp only [lossIndList, zipW3_length, hw, hr]
    omega
  · intro i hi
    have hiw : i < w.length := by omega
    have hir : i < r.length := by omega
    simp only [lossIndList]
    rw [zipW3_getD _ _ _ _ [] [] [] 0 i hi hiw hir,
      zipW3_sum_finset _ L _ _ _
        (hxL _ (getD_lt_mem x i hi []))
        (hwL _ (getD_lt_mem w i hiw []))
        (hrL _ (getD_lt_mem r i hir [])), hsnd]
  · simp only [tLoss, hself]
    simp [List.sum_replicate]

/-- Claim C2 witness: a one-sample batch of length 2 with the
reconstruction equal to the input. -/
theorem autoencoder_loss_formula_witness :
    ([[(3 : ℚ), 4]] : List (List ℚ)).length = [[(1 : ℚ), 2]].length ∧
    ([[(1 : ℚ), 2]] : List (List ℚ)) ≠ [] ∧
    (tLoss [[(1 : ℚ), 2]] [[3, 4]] [[1, 2]] true =
        Sum.inl (lossIndList [[(1 : ℚ), 2]] [[3, 4]] [[1, 2]]) ∧
      (lossIndList [[(1 : ℚ), 2]] [[3, 4]] [[1, 2]]).length =
        ([[(1 : ℚ), 2]] : List (List ℚ)).length ∧
      (∀ i, i < ([[(1 : ℚ), 2]] : List (List ℚ)).length →
        (lossIndList [[(1 : ℚ), 2]] [[3, 4]] [[1, 2]]).getD i 0 =
          (∑ j in Finset.range 2,
            1 / 2 * ((([[(3 : ℚ), 4]] : List (List ℚ)).getD i []).getD j 0) *
              (((([[(1 : ℚ), 2]] : List (List ℚ)).getD i []).getD j 0) -
                ((([[(1 : ℚ), 2]] : List (List ℚ)).getD i []).getD j 0)) ^ 2) / (2 : ℚ)) ∧
      tLoss [[(1 : ℚ), 2]] [[3, 4]] [[1, 2]] false =
        Sum.inr (lossIndList [[(1 : ℚ), 2]] [[3, 4]] [[1, 2]]).sum ∧
      lossIndList [[(1 : ℚ), 2]] [[3, 4]] [[1, 2]] =
        List.replicate ([[(1 : ℚ), 2]] : List (List ℚ)).length 0 ∧
      tLoss [[(1 : ℚ), 2]] [[3, 4]] [[1, 2]] false = Sum.inr 0) :=
  ⟨by decide, by decide,
   autoencoder_loss_formula [[1, 2]] [[3, 4]] [[1, 2]] 2 (by decide) (by decide)
     (by decide) (by decide) (by decide) (by decide)⟩

/-! ### Claim C7: permutation equivariance machinery -/

theorem map_reindex (g : List ℚ → List ℚ) (σ : List Nat) (l : List (List ℚ))
    (hσ : ∀ i ∈ σ, i < l.length) :
    (reindex σ l).map g = reindex σ (l.map g) := by
  unfold reindex
  rw [List.map_map]
  apply List.map_congr_left
  intro i hi
  exact (getD_map_lt g l i (hσ i hi) [] []).symm

theorem transform_reindex (dec : Decoder) (rs : List (List ℚ))
    (inst : Option Instrument) (z : Option ℚ) (σ : List Nat)
    (hσ : ∀ i ∈ σ, i < rs.length) :
    transform dec (reindex σ rs) inst z =
      Except.map (reindex σ) (transform dec rs inst z) := by
  cases z with
  | none => rfl
  | some zv =>
    cases inst with
    | none => rfl
    | some i =>
      simp only [transform]
      rw [map_reindex
        (fun sr => interp1d (dec.wave_rest.map (fun t => t * (1 + zv))) sr
          i.wave_obs) σ rs hσ]
      have hσ1 : ∀ j ∈ σ, j <
          (rs.map (fun sr =>
            interp1d (dec.wave_rest.map (fun t => t * (1 + zv))) sr
              i.wave_obs)).length := by
        simpa using hσ
      cases i.lsf with
      | none =>
        cases i.calibration with
        | none => rfl
        | some c =>
          exact congrArg Except.ok (map_reindex (c i.wave_obs) σ _ hσ1)
      | some f =>
        cases i.calibration with
        | none => exact congrArg Except.ok (map_reindex f σ _ hσ1)
        | some c =>
          exact congrArg Except.ok
            ((congrArg (List.map (c i.wave_obs)) (map_reindex f σ _ hσ1)).trans
              (map_reindex (c i.wave_obs) σ _ (by simpa using hσ1)))

theorem transform_ok_length (dec : Decoder) (rs : List (List ℚ))
    (inst : Option Instrument) (z : Option ℚ) (os : List (List ℚ))
    (h : transform dec rs inst z = .ok os) : os.length = rs.length := by
  cases z with
  | none => exact absurd h (by simp [transform])
  | some zv =>
    cases inst with
    | none => exact absurd h (by simp [transform])
    | some i =>
      simp only [transform] at h
      rw [Except.ok.injEq] at h
      subst h
      cases i.lsf <;> cases i.calibration <;> simp

theorem reindexQ_sum_perm (σ : List Nat) (v : List ℚ)
    (hσ : σ.Perm (List.range v.length)) : (reindexQ σ v).sum = v.sum := by
  unfold reindexQ
  have hperm : (σ.map (fun i => v.getD i 0)).Perm
      ((List.range v.length).map (fun i => v.getD i 0)) := hσ.map _
  rw [hperm.sum_eq, map_getD_range]

theorem lossIndList_length (x w r : List (List ℚ)) :
    (lossIndList x w r).length = min x.length (min w.length r.length) := by
  simp [lossIndList, zipW3_length]

theorem lossIndList_reindex (xs obs : List (List ℚ)) (σ : List Nat) (L : Nat)
    (hL : ∀ row ∈ xs, row.length = L) (hobs : obs.length = xs.length)
    (hσ : ∀ i ∈ σ, i < xs.length) :
    lossIndList (reindex σ xs) (onesLike (reindex σ xs)) (reindex σ obs) =
      reindexQ σ (lossIndList xs (onesLike xs) obs) := by
  have hrlen : (reindex σ xs).length = σ.length := by simp [reindex]
  have holen : (onesLike (reindex σ xs)).length = σ.length := by
    simp [onesLike, reindex]
  have hrolen : (reindex σ obs).length = σ.length := by simp [reindex]
  apply eq_of_getD 0
  · rw [lossIndList_length, hrlen, holen, hrolen]
    simp [reindexQ, lossIndList_length]
  · intro j hj
    have hjσ : j < σ.length := by
      rw [lossIndList_length, hrlen, holen, hrolen] at hj
      omega
    have hiσ : σ.getD j 0 ∈ σ := getD_lt_mem σ j hjσ 0
    have hi : σ.getD j 0 < xs.length := hσ _ hiσ
    have hio : σ.getD j 0 < obs.length := by omega
    have e1 : (reindex σ xs).getD j [] = xs.getD (σ.getD j 0) [] := by
      unfold reindex
      exact getD_map_lt _ σ j hjσ [] 0
    have e2 : (reindex σ obs).getD j [] = obs.getD (σ.getD j 0) [] := by
      unfold reindex
      exact getD_map_lt _ σ j hjσ [] 0
    have e3 : (onesLike (reindex σ xs)).getD j [] =
        List.replicate (xs.getD (σ.getD j 0) []).length 1 := by
      unfold onesLike
      rw [getD_map_lt _ (reindex σ xs) j (by rw [hrlen]; exact hjσ) [] [], e1]
    have e4 : (onesLike xs).getD (σ.getD j 0) [] =
        List.replicate (xs.getD (σ.getD j 0) []).length 1 := by
      unfold onesLike
      rw [getD_map_lt _ xs (σ.getD j 0) hi [] []]
    have hxs_ne : xs ≠ [] := by
      intro hnil
      rw [hnil] at hi
      simp at hi
    have hsnd_xs : sndDim xs = L := by
      unfold sndDim
      exact hL _ (headD_mem xs hxs_ne [])
    have hsnd_r : sndDim (reindex σ xs) = L := by
      cases σ with
      | nil => simp at hjσ
      | cons i0 σt =>
        show ((reindex (i0 :: σt) xs).headD []).length = L
        unfold reindex
        simp only [List.map_cons, List.headD_cons]
        exact hL _ (getD_lt_mem xs i0 (hσ i0 (by simp)) [])
    have lhsval : (lossIndList (reindex σ xs) (onesLike (reindex σ xs))
        (reindex σ obs)).getD j 0 =
        (zipW3 (fun xv wv rv => 1 / 2 * wv * (xv - rv) ^ 2)
          (xs.getD (σ.getD j 0) [])
          (List.replicate (xs.getD (σ.getD j 0) []).length 1)
          (obs.getD (σ.getD j 0) [])).sum / (L : ℚ) := by
      simp only [lossIndList]
      rw [zipW3_getD _ _ _ _ [] [] [] 0 j (by rw [hrlen]; exact hjσ)
        (by rw [holen]; exact hjσ) (by rw [hrolen]; exact hjσ)]
      rw [e1, e2, e3, hsnd_r]
    have rhsval : (reindexQ σ (lossIndList xs (onesLike xs) obs)).getD j 0 =
        (zipW3 (fun xv wv rv => 1 / 2 * wv * (xv - rv) ^ 2)
          (xs.getD (σ.getD j 0) [])
          (List.replicate (xs.getD (σ.getD j 0) []).length 1)
          (obs.getD (σ.getD j 0) [])).sum / (L : ℚ) := by
      unfold reindexQ
      rw [getD_map_lt _ σ j hjσ 0 0]
      simp only [lossIndList]
      rw [zipW3_getD _ _ _ _ [] [] [] 0 (σ.getD j 0) hi
        (by simpa [onesLike] using hi) hio]
      rw [e4, hsnd_xs]
    rw [lhsval, rhsval]

theorem decObsStage_of (mode : Mode) (rd : Rng2) (dec : Decoder)
    (inst : Option Instrument) (z : Option ℚ) (ss rest obs : List (List ℚ))
    (hD : decodeBatch mode rd dec ss = .ok rest)
    (hT : transform dec rest inst z = .ok obs) :
    decObsStage mode rd dec inst z ss = .ok (ss, rest, obs) := by
  unfold decObsStage
  rw [hD]
  show (match transform dec rest inst z with
        | Except.error e => Except.error e
        | Except.ok obs => Except.ok (ss, rest, obs)) = Except.ok (ss, rest, obs)
  rw [hT]

theorem autoLoss_of_stages (P : Prims) (rc : Rng3) (rm rd : Rng2)
    (m : Autoenc) (xs ws ss rest obs : List (List ℚ)) (z' : Option ℚ)
    (individual : Bool)
    (hE : encodeBatch P .eval rc rm m.encoder xs none = .ok ss)
    (hD : decodeBatch .eval rd m.decoder ss = .ok rest)
    (hT : transform m.decoder rest m.encoder.instrument z' = .ok obs) :
    autoLoss P .eval rc rm rd m xs ws none z' none none individual =
      .ok (tLoss xs ws obs individual) := by
  have hU : autoUnder P .eval rc rm rd m xs none z' none none =
      .ok (ss, rest, obs) := by
    unfold autoUnder
    show (match encodeBatch P .eval rc rm m.encoder xs none with
          | Except.error e => Except.error e
          | Except.ok ss =>
              decObsStage .eval rd m.decoder m.encoder.instrument z' ss) =
        Except.ok (ss, rest, obs)
    rw [hE]
    show decObsStage .eval rd m.decoder m.encoder.instrument z' ss =
      Except.ok (ss, rest, obs)
    exact decObsStage_of .eval rd m.decoder m.encoder.instrument z' ss rest obs hD hT
  have hF : autoForward P .eval rc rm rd m xs none z' none none = .ok obs := by
    unfold autoForward
    rw [hU]
  unfold autoLoss
  rw [hF]

/-- Claim C7 (confirmed): with all-ones weights, no explicit instrument
(the encoder's is used), `z = 0`, and a batch whose encode → decode →
transform stages succeed, the whole loss pipeline treats samples
independently: reindexing the batch by any permutation `σ` of its index
range permutes the per-sample loss vector (`individual = True`) by
exactly `σ`, and the summed loss (`individual = False`) is unchanged. -/
theorem loss_batch_permutation_equivariance (P : Prims) (rc : Rng3)
    (rm rd : Rng2) (m : Autoenc) (xs : List (List ℚ)) (σ : List Nat)
    (L : Nat) (ss rest obs : List (List ℚ))
    (hσ : σ.Perm (List.range xs.length))
    (hL : ∀ row ∈ xs, row.length = L)
    (hE : encodeBatch P .eval rc rm m.encoder xs none = .ok ss)
    (hD : decodeBatch .eval rd m.decoder ss = .ok rest)
    (hT : transform m.decoder rest m.encoder.instrument (some 0) = .ok obs) :
    autoLoss P .eval rc rm rd m xs (onesLike xs) none (some 0) none none true =
      .ok (Sum.inl (lossIndList xs (onesLike xs) obs)) ∧
    autoLoss P .eval rc rm rd m (reindex σ xs) (onesLike (reindex σ xs)) none
        (some 0) none none true =
      .ok (Sum.inl (reindexQ σ (lossIndList xs (onesLike xs) obs))) ∧
    (reindexQ σ (lossIndList xs (onesLike xs) obs)).sum =
      (lossIndList xs (onesLike xs) obs).sum ∧
    autoLoss P .eval rc rm rd m (reindex σ xs) (onesLike (reindex σ xs)) none
        (some 0) none none false =
      .ok (Sum.inr (lossIndList xs (onesLike xs) obs).sum) ∧
    autoLoss P .eval rc rm rd m xs (onesLike xs) none (some 0) none none false =
      .ok (Sum.inr (lossIndList xs (onesLike xs) obs).sum) := by
  have hbound : ∀ i ∈ σ, i < xs.length := by
    intro i hi
    exact List.mem_range.mp (hσ.mem_iff.mp hi)
  have hss_len : ss.length = xs.length := mapE_ok_length _ xs ss hE
  have hrest_len : rest.length = ss.length := mapE_ok_length _ ss rest hD
  have hobs_len : obs.length = rest.length :=
    transform_ok_length m.decoder rest m.encoder.instrument (some 0) obs hT
  have hbound_ss : ∀ i ∈ σ, i < ss.length := by
    intro i hi
    rw [hss_len]
    exact hbound i hi
  have hbound_rest : ∀ i ∈ σ, i < rest.length := by
    intro i hi
    rw [hrest_len]
    exact hbound_ss i hi
  have hE' : encodeBatch P .eval rc rm m.encoder (reindex σ xs) none =
      .ok (reindex σ ss) :=
    mapE_reindex _ xs ss σ hE hbound
  have hD' : decodeBatch .eval rd m.decoder (reindex σ ss) =
      .ok (reindex σ rest) :=
    mapE_reindex _ ss rest σ hD hbound_ss
  have hT2 := transform_reindex m.decoder rest m.encoder.instrument (some 0)
    σ hbound_rest
  rw [hT] at hT2
  have hT' : transform m.decoder (reindex σ rest) m.encoder.instrument
      (some 0) = .ok (reindex σ obs) := hT2
  have hAlen : (lossIndList xs (onesLike xs) obs).length = xs.length := by
    rw [lossIndList_length]
    simp [onesLike]
    omega
  have hLL := lossIndList_reindex xs obs σ L hL (by omega) hbound
  have hsum : (reindexQ σ (lossIndList xs (onesLike xs) obs)).sum =
      (lossIndList xs (onesLike xs) obs).sum := by
    apply reindexQ_sum_perm
    rw [hAlen]
    exact hσ
  refine ⟨?_, ?_, hsum, ?_, ?_⟩
  · exact autoLoss_of_stages P rc rm rd m xs (onesLike xs) ss rest obs
      (some 0) true hE hD hT
  · have h2 := autoLoss_of_stages P rc rm rd m (reindex σ xs)
      (onesLike (reindex σ xs)) (reindex σ ss) (reindex σ rest)
      (reindex σ obs) (some 0) true hE' hD' hT'
    rw [h2]
    show Except.ok (Sum.inl (lossIndList (reindex σ xs)
        (onesLike (reindex σ xs)) (reindex σ obs))) = _
    rw [hLL]
  · have h2 := autoLoss_of_stages P rc rm rd m (reindex σ xs)
      (onesLike (reindex σ xs)) (reindex σ ss) (reindex σ rest)
      (reindex σ obs) (some 0) false hE' hD' hT'
    rw [h2]
    show Except.ok (Sum.inr (lossIndList (reindex σ xs)
        (onesLike (reindex σ xs)) (reindex σ obs)).sum) = _
    rw [hLL, hsum]
  · exact autoLoss_of_stages P rc rm rd m xs (onesLike xs) ss rest obs
      (some 0) false hE hD hT

theorem encodeBatch_model0 :
    encodeBatch oneP .eval rngA rngB model0.encoder [[0, 0], [0, 0]] none =
      .ok [[0], [0]] := by
  show mapE (fun x => encForward oneP .eval rngA rngB enc0 x none)
    [[0, 0], [0, 0]] = .ok [[0], [0]]
  simp only [mapE, encForward_enc0]

theorem mlp_dec0_eval :
    mlpForward .eval rngB dec0.p dec0.mlp [0] = .ok [0, 0] := by
  have hlin : linear [[0], [0]] [0, 0] [(0 : ℚ)] = .ok [0, 0] := by
    unfold linear
    rw [if_pos (by decide)]
    simp [dot]
  show mlpForward .eval rngB 0 [⟨[[0], [0]], [0, 0], Act.leakyReLU⟩] [0] =
    .ok [0, 0]
  simp only [mlpForward]
  rw [hlin]
  show Except.ok (applyAct Act.leakyReLU [0, 0]) = .ok [0, 0]
  norm_num [applyAct]

theorem decodeBatch_model0 :
    decodeBatch .eval rngB model0.decoder [[0], [0]] = .ok [[0, 0], [0, 0]] := by
  show mapE (mlpForward .eval rngB dec0.p dec0.mlp) [[0], [0]] =
    .ok [[0, 0], [0, 0]]
  simp only [mapE, mlp_dec0_eval]

theorem getD_zero_of_all_zero (ys : List ℚ) (i : Nat)
    (h : ∀ y ∈ ys, y = 0) : ys.getD i 0 = 0 := by
  rcases Nat.lt_or_ge i ys.length with hi | hi
  · exact h _ (getD_lt_mem ys i hi 0)
  · exact List.getD_eq_default ys 0 hi

theorem interp1d_zeros (xs ys qs : List ℚ) (h : ∀ y ∈ ys, y = 0) :
    interp1d xs ys qs = List.replicate qs.length 0 := by
  unfold interp1d
  have hval : ∀ q : ℚ,
      ys.getD (interpIdx xs q) 0 +
        (ys.getD (interpIdx xs q + 1) 0 - ys.getD (interpIdx xs q) 0) *
          (q - xs.getD (interpIdx xs q) 0) /
          (xs.getD (interpIdx xs q + 1) 0 - xs.getD (interpIdx xs q) 0) = 0 := by
    intro q
    rw [getD_zero_of_all_zero ys _ h, getD_zero_of_all_zero ys _ h]
    ring
  have hmap : qs.map (fun q =>
      ys.getD (interpIdx xs q) 0 +
        (ys.getD (interpIdx xs q + 1) 0 - ys.getD (interpIdx xs q) 0) *
          (q - xs.getD (interpIdx xs q) 0) /
          (xs.getD (interpIdx xs q + 1) 0 - xs.getD (interpIdx xs q) 0)) =
      qs.map (fun _ => (0 : ℚ)) :=
    List.map_congr_left (fun q _ => hval q)
  rw [hmap, List.map_const']

theorem transform_model0 :
    transform model0.decoder [[0, 0], [0, 0]] model0.encoder.instrument
      (some 0) = .ok [[0, 0], [0, 0]] := by
  show transform dec0 [[0, 0], [0, 0]] (some instr0) (some 0) =
    .ok [[0, 0], [0, 0]]
  simp only [transform, instr0]
  simp only [List.map_cons, List.map_nil]
  rw [interp1d_zeros _ _ _ (by simp)]
  rfl

/-- Claim C7 witness: the theorem applied to the concrete model
`model0`, the two-sample all-zero batch of length-2 spectra, and the
swap permutation `[1, 0]`. -/
theorem loss_batch_permutation_equivariance_witness :
    ([1, 0] : List Nat).Perm
      (List.range ([[(0 : ℚ), 0], [0, 0]] : List (List ℚ)).length) ∧
    (∀ row ∈ ([[(0 : ℚ), 0], [0, 0]] : List (List ℚ)), row.length = 2) ∧
    encodeBatch oneP Mode.eval rngA rngB model0.encoder [[0, 0], [0, 0]] none =
      .ok [[0], [0]] ∧
    decodeBatch Mode.eval rngB model0.decoder [[0], [0]] =
      .ok [[0, 0], [0, 0]] ∧
    transform model0.decoder [[0, 0], [0, 0]] model0.encoder.instrument
      (some 0) = .ok [[0, 0], [0, 0]] ∧
    (autoLoss oneP Mode.eval rngA rngB rngB model0 [[0, 0], [0, 0]]
        (onesLike [[0, 0], [0, 0]]) none (some 0) none none true =
      .ok (Sum.inl (lossIndList [[0, 0], [0, 0]] (onesLike [[0, 0], [0, 0]])
        [[0, 0], [0, 0]])) ∧
    autoLoss oneP Mode.eval rngA rngB rngB model0
        (reindex [1, 0] [[0, 0], [0, 0]])
        (onesLike (reindex [1, 0] [[0, 0], [0, 0]])) none (some 0) none none
        true =
      .ok (Sum.inl (reindexQ [1, 0]
        (lossIndList [[0, 0], [0, 0]] (onesLike [[0, 0], [0, 0]])
          [[0, 0], [0, 0]]))) ∧
    (reindexQ [1, 0] (lossIndList [[0, 0], [0, 0]] (onesLike [[0, 0], [0, 0]])
        [[0, 0], [0, 0]])).sum =
      (lossIndList [[0, 0], [0, 0]] (onesLike [[0, 0], [0, 0]])
        [[0, 0], [0, 0]]).sum ∧
    autoLoss oneP Mode.eval rngA rngB rngB model0
        (reindex [1, 0] [[0, 0], [0, 0]])
        (onesLike (reindex [1, 0] [[0, 0], [0, 0]])) none (some 0) none none
        false =
      .ok (Sum.inr (lossIndList [[0, 0], [0, 0]] (onesLike [[0, 0], [0, 0]])
        [[0, 0], [0, 0]]).sum) ∧
    autoLoss oneP Mode.eval rngA rngB rngB model0 [[0, 0], [0, 0]]
        (onesLike [[0, 0], [0, 0]]) none (some 0) none none false =
      .ok (Sum.inr (lossIndList [[0, 0], [0, 0]] (onesLike [[0, 0], [0, 0]])
        [[0, 0], [0, 0]]).sum)) :=
  ⟨by decide, by decide, encodeBatch_model0, decodeBatch_model0,
   transform_model0,
   loss_batch_permutation_equivariance oneP rngA rngB rngB model0
     [[0, 0], [0, 0]] [1, 0] 2 [[0], [0]] [[0, 0], [0, 0]] [[0, 0], [0, 0]]
     (by decide) (by decide) encodeBatch_model0 decodeBatch_model0
     transform_model0⟩

end Spender
